import Mathlib

/-!
Verification of the resource-allocation core of `container-ops`.

The repository's allocator modules (`containerops._ipam` and
`containerops._port_alloc`) are consulted only through their callers in
`containerops/nebula.py` (the `endpoint` operation) and
`containerops/vpnclient.py`; the modules themselves are embedded here
following the specification of the allocation-table data model and the
`allocate` contracts.  The allocation-relevant section of
`containerops.nebula.endpoint` (its validation guards and the two
allocator invocations) is translated directly from the source.

IP addresses and ports are modelled as natural numbers (an IPv4 address
is its 32-bit numeric value); an allocation table for one namespace is
an association list from keys (hostnames) to values, mirroring a
JSON-object / dict persisted per namespace.
-/

set_option autoImplicit false

namespace ContainerOps

/-- One namespace's allocation table: a finite mapping from stable string
keys to numeric resource values (IP addresses or ports), in insertion
order, as a Python dict persisted to a flat file. -/
abbrev AllocTable := List (String × Nat)

/-- Look up the value bound to key `k` (dict membership / indexing). -/
def lookup (k : String) : AllocTable → Option Nat
  | [] => none
  | (k2, v) :: t => if k2 = k then some v else lookup k t

/-- Bind key `k` to value `v`, replacing an existing binding in place and
otherwise appending (Python dict assignment, insertion order kept). -/
def setVal (k : String) (v : Nat) : AllocTable → AllocTable
  | [] => [(k, v)]
  | (k2, v2) :: t => if k2 = k then (k, v) :: t else (k2, v2) :: setVal k v t

/-- Remove any binding of key `k` (Python dict `pop(k, None)`). -/
def eraseKey (k : String) (t : AllocTable) : AllocTable :=
  t.filter (fun p => p.1 != k)

/-- Whether some key of the table is bound to value `v`. -/
def hasValue (v : Nat) : AllocTable → Bool
  | [] => false
  | (_, v2) :: t => if v2 = v then true else hasValue v t

/-- Whether a key other than `k` is bound to value `v`. -/
def boundToOther (k : String) (v : Nat) : AllocTable → Bool
  | [] => false
  | (k2, v2) :: t =>
    if k2 ≠ k ∧ v2 = v then true else boundToOther k v t

/-- First value of the candidate list not bound to any key of the table
(the deterministic ascending first-free scan). -/
def findFree (t : AllocTable) : List Nat → Option Nat
  | [] => none
  | v :: rest => if hasValue v t then findFree t rest else some v

/-- A CIDR block, e.g. `10.2.57.0/24`: the network base address (host
bits zero) as a 32-bit number, together with the routing-mask length
(the `prefix_len` of `nebula.Network`). -/
structure Cidr where
  base : Nat
  maskLen : Nat
deriving DecidableEq

/-- Number of host bits of a CIDR block. -/
def hostBits (c : Cidr) : Nat := 32 - c.maskLen

/-- The broadcast address of a CIDR block (all host bits one). -/
def broadcastAddr (c : Cidr) : Nat := c.base + 2 ^ hostBits c - 1

/-- `ip` lies within the CIDR block and is neither the network address
nor the broadcast address. -/
def validHost (c : Cidr) (ip : Nat) : Prop :=
  c.base < ip ∧ ip < broadcastAddr c

instance (c : Cidr) (ip : Nat) : Decidable (validHost c ip) :=
  inferInstanceAs (Decidable (_ ∧ _))

/-- The IP pool of a CIDR block, ascending: every address of the block
except the network and broadcast addresses. -/
def ipPool (c : Cidr) : List Nat :=
  List.range' (c.base + 1) (2 ^ hostBits c - 2)

/-- The port pool of an inclusive range `(low, high)`, ascending. -/
def portPool (r : Nat × Nat) : List Nat :=
  List.range' r.1 (r.2 + 1 - r.1)

/-- `v` lies within the closed port interval. -/
def inPortRange (r : Nat × Nat) (v : Nat) : Prop :=
  r.1 ≤ v ∧ v ≤ r.2

instance (r : Nat × Nat) (v : Nat) : Decidable (inPortRange r v) :=
  inferInstanceAs (Decidable (_ ∧ _))

/-- Python's `str.endswith`: `t` is a suffix of `s` (checked on the
character list of the string). -/
def strEndsWith (s t : String) : Bool :=
  t.data.isSuffixOf s.data

/-- Error taxonomy of the allocators (spec section 7). -/
inductive IpamError where
  | invalidAddress
  | addressConflict
  | poolExhausted
deriving DecidableEq

/-- Modelled from the spec: `containerops._ipam.allocate_ip`, whose module
is not part of the sources here (only its callers are).  Behaviour per the
`allocate` contract of the IP allocator: the `network_name`/`base_dir`
arguments select the per-namespace table, passed here explicitly and
returned updated.  `present=False` removes any entry for the hostname.
An existing entry is returned unchanged regardless of `explicit_ip`
(idempotence: an assigned value never changes while allocated).
Otherwise an explicit IP is validated against the CIDR block
(`invalidAddress`), checked against other keys' bindings
(`addressConflict`) and bound; with no explicit IP the pool is scanned in
ascending order for the first free address (`poolExhausted` if none).
Error outcomes leave the table unmutated. -/
def allocate_ip (cidr : Cidr) (hostname : String) (explicit_ip : Option Nat)
    (present : Bool) (table : AllocTable) :
    Except IpamError (Option Nat) × AllocTable :=
  if present = false then
    (.ok none, eraseKey hostname table)
  else
    match lookup hostname table with
    | some v => (.ok (some v), table)
    | none =>
      match explicit_ip with
      | some ip =>
        if validHost cidr ip then
          if boundToOther hostname ip table then
            (.error .addressConflict, table)
          else
            (.ok (some ip), setVal hostname ip table)
        else
          (.error .invalidAddress, table)
      | none =>
        match findFree table (ipPool cidr) with
        | some ip => (.ok (some ip), setVal hostname ip table)
        | none => (.error .poolExhausted, table)

/-- Modelled from the spec: `containerops._port_alloc.allocate_port`,
whose module is not part of the sources here (only its caller is).  Same
shape as the IP allocator, but the namespace (selecting the table) is
`(network_name, machine_id)`, the pool is the closed interval
`port_range`, and there is no explicit-value path. -/
def allocate_port (port_range : Nat × Nat) (hostname : String)
    (present : Bool) (table : AllocTable) :
    Except IpamError (Option Nat) × AllocTable :=
  if present = false then
    (.ok none, eraseKey hostname table)
  else
    match lookup hostname table with
    | some v => (.ok (some v), table)
    | none =>
      match findFree table (portPool port_range) with
      | some p => (.ok (some p), setVal hostname p table)
      | none => (.error .poolExhausted, table)

/-- The fields of `nebula.Network` consulted by the allocation section of
`nebula.endpoint` (the CIDR string is parsed into a `Cidr`). -/
structure NetworkL where
  name : String
  dns_domain : String
  cidr : Cidr
  underlay_port_range : Nat × Nat
  failover_etcd : List String

/-- The two per-namespace allocation tables touched by one
`nebula.endpoint` call: the network's IP table and the port table of the
`(network, machine)` namespace of the deployment target. -/
structure EndpointState where
  ipTable : AllocTable
  portTable : AllocTable
deriving DecidableEq

/-- Errors surfaced by the allocation section of `nebula.endpoint`: its
own `ValueError` guards, or an allocator error propagating. -/
inductive EndpointError where
  | valueError
  | ipamError (e : IpamError)
deriving DecidableEq

/-- The allocation section of `containerops.nebula.endpoint` (source
lines 269-293): the two `ValueError` guards, the unconditional
`ipam.allocate_ip` call, and the `port_alloc.allocate_port` call made
only when `underlay_port is None`.  Returns the IP and underlay port the
rest of `endpoint` proceeds with, and the updated tables. -/
def endpoint (net : NetworkL) (hostname : String) (ip : Option Nat)
    (underlay_port : Option Nat) (failover : Bool) (present : Bool)
    (st : EndpointState) :
    Except EndpointError (Option Nat × Option Nat) × EndpointState :=
  if ¬ strEndsWith hostname net.dns_domain then
    (.error .valueError, st)
  else if failover ∧ net.failover_etcd.isEmpty then
    (.error .valueError, st)
  else
    match allocate_ip net.cidr hostname ip present st.ipTable with
    | (.error e, t) => (.error (.ipamError e), { st with ipTable := t })
    | (.ok ipRes, ipTable2) =>
      match underlay_port with
      | some p => (.ok (ipRes, some p), { st with ipTable := ipTable2 })
      | none =>
        match allocate_port net.underlay_port_range hostname present
            st.portTable with
        | (.error e, pt) =>
          (.error (.ipamError e), { ipTable := ipTable2, portTable := pt })
        | (.ok portRes, portTable2) =>
          (.ok (ipRes, portRes),
           { ipTable := ipTable2, portTable := portTable2 })

/-- Whether a `nebula.endpoint` call reaches the `ipam.allocate_ip`
invocation: mirrors the control flow of the source (both `ValueError`
guards precede it). -/
def endpointCallsIpam (net : NetworkL) (hostname : String)
    (failover : Bool) : Bool :=
  strEndsWith hostname net.dns_domain &&
    !(failover && net.failover_etcd.isEmpty)

/-- Whether a `nebula.endpoint` call reaches the
`port_alloc.allocate_port` invocation: mirrors the control flow of the
source (the guards must pass, `ipam.allocate_ip` must not raise, and
`underlay_port` must be `None`). -/
def endpointCallsPortAlloc (net : NetworkL) (hostname : String)
    (ip : Option Nat) (underlay_port : Option Nat) (failover : Bool)
    (present : Bool) (st : EndpointState) : Bool :=
  endpointCallsIpam net hostname failover &&
    (match (allocate_ip net.cidr hostname ip present st.ipTable).1 with
     | .ok _ => underlay_port.isNone
     | .error _ => false)

/-- Each key is bound at most once and each value held at most once. -/
def TableInj (t : AllocTable) : Prop :=
  (t.map Prod.fst).Nodup ∧ (t.map Prod.snd).Nodup

/-- Invariant of one namespace's IP table: injective mapping whose values
all lie strictly inside the host range of the CIDR block. -/
def IpInv (c : Cidr) (t : AllocTable) : Prop :=
  TableInj t ∧ ∀ p ∈ t, validHost c p.2

/-- Invariant of one namespace's port table: injective mapping whose
values all lie within the configured port range. -/
def PortInv (r : Nat × Nat) (t : AllocTable) : Prop :=
  TableInj t ∧ ∀ p ∈ t, inPortRange r p.2

/-- IP tables reachable from the empty table (a table is created empty on
the first allocation request of its namespace) through `allocate_ip`
calls of any shape, release included. -/
inductive ReachableIp (c : Cidr) : AllocTable → Prop where
  | empty : ReachableIp c []
  | step (t : AllocTable) (hn : String) (eip : Option Nat) (pr : Bool) :
      ReachableIp c t → ReachableIp c (allocate_ip c hn eip pr t).2

/-- Port tables reachable from the empty table through `allocate_port`
calls of any shape, release included. -/
inductive ReachablePort (r : Nat × Nat) : AllocTable → Prop where
  | empty : ReachablePort r []
  | step (t : AllocTable) (hn : String) (pr : Bool) :
      ReachablePort r t → ReachablePort r (allocate_port r hn pr t).2

/-! ### Concrete networks used in witnesses and counterexamples -/

/-- `10.2.57.0/24` (the network of the repository's test suite):
`10*2^24 + 2*2^16 + 57*2^8 = 167917824`. -/
def cidr24 : Cidr := ⟨167917824, 24⟩

/-- `10.2.57.0/29`: a 6-address host pool for small concrete scenarios. -/
def cidr29 : Cidr := ⟨167917824, 29⟩

/-- A concrete network configuration over `cidr24`. -/
def net0 : NetworkL := ⟨"net", ".test", cidr24, (12500, 12502), []⟩

/-- Whether an `Except` value is a success. -/
def isOk {e a : Type} : Except e a → Bool
  | .ok _ => true
  | .error _ => false

/-! ### Basic lemmas about the table operations -/

theorem eraseKey_cons (k k2 : String) (v2 : Nat) (t : AllocTable) :
    eraseKey k ((k2, v2) :: t) =
      if k2 = k then eraseKey k t else (k2, v2) :: eraseKey k t := by
  by_cases h : k2 = k <;> simp [eraseKey, List.filter_cons, h]

theorem lookup_setVal_self (k : String) (v : Nat) (t : AllocTable) :
    lookup k (setVal k v t) = some v := by
  induction t with
  | nil => simp [setVal, lookup]
  | cons p t ih =>
    obtain ⟨k2, v2⟩ := p
    by_cases h : k2 = k
    · simp [setVal, h, lookup]
    · simp [setVal, h, lookup, ih]

theorem lookup_setVal_ne (k k2 : String) (v : Nat) (t : AllocTable)
    (h : k2 ≠ k) : lookup k2 (setVal k v t) = lookup k2 t := by
  have hk : k ≠ k2 := Ne.symm h
  induction t with
  | nil => simp [setVal, lookup, hk]
  | cons p t ih =>
    obtain ⟨k3, v3⟩ := p
    by_cases h3 : k3 = k
    · subst h3
      simp [setVal, lookup, hk]
    · simp [setVal, h3, lookup, ih]

theorem setVal_of_lookup_none (k : String) (v : Nat) (t : AllocTable)
    (h : lookup k t = none) : setVal k v t = t ++ [(k, v)] := by
  induction t with
  | nil => simp [setVal]
  | cons p t ih =>
    obtain ⟨k2, v2⟩ := p
    by_cases h2 : k2 = k
    · simp [lookup, h2] at h
    · simp only [lookup, if_neg h2] at h
      simp [setVal, h2, ih h]

theorem lookup_eq_none_iff (k : String) (t : AllocTable) :
    lookup k t = none ↔ ∀ p ∈ t, p.1 ≠ k := by
  induction t with
  | nil => simp [lookup]
  | cons p t ih =>
    obtain ⟨k2, v2⟩ := p
    by_cases h2 : k2 = k <;> simp [lookup, h2, ih]

theorem lookup_mem (k : String) (v : Nat) (t : AllocTable)
    (h : lookup k t = some v) : (k, v) ∈ t := by
  induction t with
  | nil => simp [lookup] at h
  | cons p t ih =>
    obtain ⟨k2, v2⟩ := p
    by_cases h2 : k2 = k
    · subst h2
      simp [lookup] at h
      simp [h]
    · simp only [lookup, if_neg h2] at h
      exact List.mem_cons_of_mem _ (ih h)

theorem lookup_eraseKey_self (k : String) (t : AllocTable) :
    lookup k (eraseKey k t) = none := by
  rw [lookup_eq_none_iff]
  intro p hp
  have := List.of_mem_filter hp
  simpa using this

theorem mem_eraseKey (k : String) (t : AllocTable) (p : String × Nat)
    (h : p ∈ eraseKey k t) : p ∈ t :=
  List.mem_of_mem_filter h

theorem lookup_eraseKey_ne (k k2 : String) (t : AllocTable)
    (h : k2 ≠ k) : lookup k2 (eraseKey k t) = lookup k2 t := by
  induction t with
  | nil => simp [eraseKey]
  | cons p t ih =>
    obtain ⟨k3, v3⟩ := p
    rw [eraseKey_cons]
    by_cases h3 : k3 = k
    · subst h3
      have h32 : k3 ≠ k2 := Ne.symm h
      simp [lookup, h32, ih]
    · simp [lookup, h3, ih]

theorem eraseKey_of_lookup_none (k : String) (t : AllocTable)
    (h : lookup k t = none) : eraseKey k t = t := by
  induction t with
  | nil => simp [eraseKey]
  | cons p t ih =>
    obtain ⟨k2, v2⟩ := p
    by_cases h2 : k2 = k
    · simp [lookup, h2] at h
    · simp only [lookup, if_neg h2] at h
      rw [eraseKey_cons, if_neg h2, ih h]

theorem eraseKey_eraseKey (k : String) (t : AllocTable) :
    eraseKey k (eraseKey k t) = eraseKey k t :=
  eraseKey_of_lookup_none k _ (lookup_eraseKey_self k t)

theorem hasValue_eq_false_iff (v : Nat) (t : AllocTable) :
    hasValue v t = false ↔ ∀ p ∈ t, p.2 ≠ v := by
  induction t with
  | nil => simp [hasValue]
  | cons p t ih =>
    obtain ⟨k2, v2⟩ := p
    by_cases h2 : v2 = v <;> simp [hasValue, h2, ih]

theorem boundToOther_eq_hasValue (k : String) (v : Nat) (t : AllocTable)
    (h : lookup k t = none) : boundToOther k v t = hasValue v t := by
  induction t with
  | nil => simp [boundToOther, hasValue]
  | cons p t ih =>
    obtain ⟨k2, v2⟩ := p
    by_cases h2 : k2 = k
    · simp [lookup, h2] at h
    · simp only [lookup, if_neg h2] at h
      by_cases h3 : v2 = v
      · simp [boundToOther, hasValue, h2, h3]
      · simp [boundToOther, hasValue, h2, h3, ih h]

/-! ### The first-free scan -/

theorem findFree_some_free (t : AllocTable) (l : List Nat) (v : Nat)
    (h : findFree t l = some v) : hasValue v t = false ∧ v ∈ l := by
  induction l with
  | nil => simp [findFree] at h
  | cons w rest ih =>
    by_cases hw : hasValue w t = true
    · simp only [findFree, hw, if_true] at h
      obtain ⟨h1, h2⟩ := ih h
      exact ⟨h1, List.mem_cons_of_mem _ h2⟩
    · have hw2 : hasValue w t = false := by simpa using hw
      simp only [findFree, hw2, Bool.false_eq_true, if_false,
        Option.some.injEq] at h
      subst h
      exact ⟨hw2, List.mem_cons_self _ _⟩

theorem findFree_range'_some (t : AllocTable) (s n v : Nat)
    (h : findFree t (List.range' s n) = some v) :
    hasValue v t = false ∧ s ≤ v ∧ v < s + n ∧
      ∀ w, s ≤ w → w < v → hasValue w t = true := by
  induction n generalizing s with
  | zero => simp [findFree] at h
  | succ n ih =>
    rw [List.range'_succ] at h
    by_cases hs : hasValue s t = true
    · simp only [findFree, hs, if_true] at h
      obtain ⟨h1, h2, h3, h4⟩ := ih (s + 1) h
      refine ⟨h1, by omega, by omega, ?_⟩
      intro w hw1 hw2
      rcases Nat.eq_or_lt_of_le hw1 with rfl | hlt
      · exact hs
      · exact h4 w hlt hw2
    · have hs2 : hasValue s t = false := by simpa using hs
      simp only [findFree, hs2, Bool.false_eq_true, if_false,
        Option.some.injEq] at h
      subst h
      exact ⟨hs2, Nat.le_refl _, by omega, fun w hw1 hw2 => by omega⟩

theorem findFree_range'_none (t : AllocTable) (s n : Nat)
    (h : ∀ w, s ≤ w → w < s + n → hasValue w t = true) :
    findFree t (List.range' s n) = none := by
  induction n generalizing s with
  | zero => simp [findFree]
  | succ n ih =>
    rw [List.range'_succ]
    have hs : hasValue s t = true := h s (Nat.le_refl s) (by omega)
    simp only [findFree, hs, if_true]
    exact ih (s + 1) (fun w hw1 hw2 => h w (by omega) (by omega))

/-! ### Pool membership -/

theorem mem_ipPool_iff (c : Cidr) (v : Nat) :
    v ∈ ipPool c ↔ validHost c v := by
  unfold ipPool validHost broadcastAddr
  rw [List.mem_range'_1]
  generalize 2 ^ hostBits c = P
  omega

theorem mem_portPool_iff (r : Nat × Nat) (v : Nat) :
    v ∈ portPool r ↔ inPortRange r v := by
  unfold portPool inPortRange
  rw [List.mem_range'_1]
  omega

/-! ### Injectivity of the table -/

theorem not_mem_keys_of_lookup_none (k : String) (t : AllocTable)
    (h : lookup k t = none) : k ∉ t.map Prod.fst := by
  rw [lookup_eq_none_iff] at h
  intro hmem
  obtain ⟨p, hp, he⟩ := List.mem_map.1 hmem
  exact h p hp he

theorem not_mem_values_of_hasValue_false (v : Nat) (t : AllocTable)
    (h : hasValue v t = false) : v ∉ t.map Prod.snd := by
  rw [hasValue_eq_false_iff] at h
  intro hmem
  obtain ⟨p, hp, he⟩ := List.mem_map.1 hmem
  exact h p hp he

theorem tableInj_setVal (k : String) (v : Nat) (t : AllocTable)
    (hk : lookup k t = none) (hv : hasValue v t = false)
    (hI : TableInj t) : TableInj (setVal k v t) := by
  rw [setVal_of_lookup_none k v t hk]
  constructor
  · rw [List.map_append]
    refine List.Nodup.append hI.1 (List.nodup_singleton k) ?_
    intro a ha hb
    simp only [List.map_cons, List.map_nil, List.mem_singleton] at hb
    subst hb
    exact not_mem_keys_of_lookup_none _ t hk ha
  · rw [List.map_append]
    refine List.Nodup.append hI.2 (List.nodup_singleton v) ?_
    intro a ha hb
    simp only [List.map_cons, List.map_nil, List.mem_singleton] at hb
    subst hb
    exact not_mem_values_of_hasValue_false _ t hv ha

theorem tableInj_eraseKey (k : String) (t : AllocTable)
    (hI : TableInj t) : TableInj (eraseKey k t) := by
  have hs : List.Sublist (eraseKey k t) t := List.filter_sublist t
  exact ⟨List.Nodup.sublist (List.Sublist.map Prod.fst hs) hI.1,
    List.Nodup.sublist (List.Sublist.map Prod.snd hs) hI.2⟩

theorem lookup_ne_of_nodup_values (t : AllocTable)
    (hnd : (t.map Prod.snd).Nodup) (k1 k2 : String) (v1 v2 : Nat)
    (hk : k1 ≠ k2) (h1 : lookup k1 t = some v1)
    (h2 : lookup k2 t = some v2) : v1 ≠ v2 := by
  induction t with
  | nil => simp [lookup] at h1
  | cons p t ih =>
    obtain ⟨k, v⟩ := p
    simp only [List.map_cons, List.nodup_cons] at hnd
    by_cases e1 : k = k1
    · subst e1
      simp only [lookup, if_pos rfl] at h1
      simp only [lookup, if_neg hk] at h2
      have hv2 : v2 ∈ t.map Prod.snd :=
        List.mem_map.2 ⟨(k2, v2), lookup_mem _ _ _ h2, rfl⟩
      have hv1 : v = v1 := Option.some.inj h1
      subst hv1
      intro he
      rw [← he] at hv2
      exact hnd.1 hv2
    · by_cases e2 : k = k2
      · subst e2
        simp only [lookup, if_pos rfl] at h2
        simp only [lookup, if_neg e1] at h1
        have hv1 : v1 ∈ t.map Prod.snd :=
          List.mem_map.2 ⟨(k1, v1), lookup_mem _ _ _ h1, rfl⟩
        have hv2 : v = v2 := Option.some.inj h2
        subst hv2
        intro he
        rw [he] at hv1
        exact hnd.1 hv1
      · simp only [lookup, if_neg e1] at h1
        simp only [lookup, if_neg e2] at h2
        exact ih hnd.2 h1 h2

/-! ### Reachable-state invariants -/

theorem mem_setVal (k : String) (v : Nat) (t : AllocTable) (p : String × Nat)
    (hk : lookup k t = none) (hp : p ∈ setVal k v t) : p ∈ t ∨ p = (k, v) := by
  rw [setVal_of_lookup_none k v t hk] at hp
  rcases List.mem_append.1 hp with h | h
  · exact Or.inl h
  · simp only [List.mem_singleton] at h
    exact Or.inr h

theorem allocate_ip_preserves_inv (c : Cidr) (hn : String)
    (eip : Option Nat) (pr : Bool) (t : AllocTable) (hI : IpInv c t) :
    IpInv c (allocate_ip c hn eip pr t).2 := by
  cases pr with
  | false =>
    simp only [allocate_ip, if_pos rfl]
    exact ⟨tableInj_eraseKey hn t hI.1,
      fun p hp => hI.2 p (mem_eraseKey hn t p hp)⟩
  | true =>
    rcases hl : lookup hn t with _ | v
    · rcases eip with _ | ip
      · rcases hf : findFree t (ipPool c) with _ | ip
        · simp [allocate_ip, hl, hf]
          exact hI
        · obtain ⟨hfree, hmem⟩ := findFree_some_free t _ ip hf
          have hval : validHost c ip := (mem_ipPool_iff c ip).1 hmem
          simp [allocate_ip, hl, hf]
          refine ⟨tableInj_setVal hn ip t hl hfree hI.1, ?_⟩
          intro p hp
          rcases mem_setVal hn ip t p hl hp with h | h
          · exact hI.2 p h
          · rw [h]
            exact hval
      · by_cases hv : validHost c ip
        · by_cases hb : boundToOther hn ip t = true
          · simp [allocate_ip, hl, hv, hb]
            exact hI
          · have hb2 : boundToOther hn ip t = false := by simpa using hb
            have hfree : hasValue ip t = false := by
              rw [← boundToOther_eq_hasValue hn ip t hl]
              exact hb2
            simp [allocate_ip, hl, hv, hb2]
            refine ⟨tableInj_setVal hn ip t hl hfree hI.1, ?_⟩
            intro p hp
            rcases mem_setVal hn ip t p hl hp with h | h
            · exact hI.2 p h
            · rw [h]
              exact hv
        · simp [allocate_ip, hl, hv]
          exact hI
    · simp [allocate_ip, hl]
      exact hI

theorem allocate_port_preserves_inv (r : Nat × Nat) (hn : String)
    (pr : Bool) (t : AllocTable) (hI : PortInv r t) :
    PortInv r (allocate_port r hn pr t).2 := by
  cases pr with
  | false =>
    simp only [allocate_port, if_pos rfl]
    exact ⟨tableInj_eraseKey hn t hI.1,
      fun p hp => hI.2 p (mem_eraseKey hn t p hp)⟩
  | true =>
    rcases hl : lookup hn t with _ | v
    · rcases hf : findFree t (portPool r) with _ | p0
      · simp [allocate_port, hl, hf]
        exact hI
      · obtain ⟨hfree, hmem⟩ := findFree_some_free t _ p0 hf
        have hval : inPortRange r p0 := (mem_portPool_iff r p0).1 hmem
        simp [allocate_port, hl, hf]
        refine ⟨tableInj_setVal hn p0 t hl hfree hI.1, ?_⟩
        intro p hp
        rcases mem_setVal hn p0 t p hl hp with h | h
        · exact hI.2 p h
        · rw [h]
          exact hval
    · simp [allocate_port, hl]
      exact hI

theorem reachableIp_inv (c : Cidr) (t : AllocTable)
    (h : ReachableIp c t) : IpInv c t := by
  induction h with
  | empty => exact ⟨⟨List.nodup_nil, List.nodup_nil⟩, by simp⟩
  | step t hn eip pr _ ih => exact allocate_ip_preserves_inv c hn eip pr t ih

theorem reachablePort_inv (r : Nat × Nat) (t : AllocTable)
    (h : ReachablePort r t) : PortInv r t := by
  induction h with
  | empty => exact ⟨⟨List.nodup_nil, List.nodup_nil⟩, by simp⟩
  | step t hn pr _ ih => exact allocate_port_preserves_inv r hn pr t ih

theorem tableInj_allocate_ip (c : Cidr) (hn : String) (eip : Option Nat)
    (pr : Bool) (t : AllocTable) (hI : TableInj t) :
    TableInj (allocate_ip c hn eip pr t).2 := by
  cases pr with
  | false =>
    simp only [allocate_ip, if_pos rfl]
    exact tableInj_eraseKey hn t hI
  | true =>
    rcases hl : lookup hn t with _ | v
    · rcases eip with _ | ip
      · rcases hf : findFree t (ipPool c) with _ | ip
        · simpa [allocate_ip, hl, hf] using hI
        · have hfree := (findFree_some_free t _ ip hf).1
          simpa [allocate_ip, hl, hf] using tableInj_setVal hn ip t hl hfree hI
      · by_cases hv : validHost c ip
        · by_cases hb : boundToOther hn ip t = true
          · simpa [allocate_ip, hl, hv, hb] using hI
          · have hb2 : boundToOther hn ip t = false := by simpa using hb
            have hfree : hasValue ip t = false := by
              rw [← boundToOther_eq_hasValue hn ip t hl]
              exact hb2
            simpa [allocate_ip, hl, hv, hb2] using
              tableInj_setVal hn ip t hl hfree hI
        · simpa [allocate_ip, hl, hv] using hI
    · simpa [allocate_ip, hl] using hI

theorem tableInj_allocate_port (r : Nat × Nat) (hn : String)
    (pr : Bool) (t : AllocTable) (hI : TableInj t) :
    TableInj (allocate_port r hn pr t).2 := by
  cases pr with
  | false =>
    simp only [allocate_port, if_pos rfl]
    exact tableInj_eraseKey hn t hI
  | true =>
    rcases hl : lookup hn t with _ | v
    · rcases hf : findFree t (portPool r) with _ | p0
      · simpa [allocate_port, hl, hf] using hI
      · have hfree := (findFree_some_free t _ p0 hf).1
        simpa [allocate_port, hl, hf] using tableInj_setVal hn p0 t hl hfree hI
    · simpa [allocate_port, hl] using hI

/-! ### The claims -/

/-- Claim C1: idempotence of allocation.  For every namespace and key,
calling `allocate` (IP or port) twice with identical arguments returns
the identical value both times, and the second call leaves the
allocation table unchanged: re-running either allocator on its own
output table reproduces the same result and table exactly. -/
theorem allocate_idempotent (c : Cidr) (r : Nat × Nat) (hn : String)
    (eip : Option Nat) (pr : Bool) (ti tp : AllocTable) :
    allocate_ip c hn eip pr (allocate_ip c hn eip pr ti).2
      = allocate_ip c hn eip pr ti
    ∧ allocate_port r hn pr (allocate_port r hn pr tp).2
      = allocate_port r hn pr tp := by
  constructor
  · cases pr with
    | false => simp [allocate_ip, eraseKey_eraseKey]
    | true =>
      rcases hl : lookup hn ti with _ | v
      · rcases eip with _ | ip
        · rcases hf : findFree ti (ipPool c) with _ | ip
          · simp [allocate_ip, hl, hf]
          · simp [allocate_ip, hl, hf, lookup_setVal_self]
        · by_cases hv : validHost c ip
          · by_cases hb : boundToOther hn ip ti = true
            · simp [allocate_ip, hl, hv, hb]
            · have hb2 : boundToOther hn ip ti = false := by simpa using hb
              simp [allocate_ip, hl, hv, hb2, lookup_setVal_self]
          · simp [allocate_ip, hl, hv]
      · simp [allocate_ip, hl]
  · cases pr with
    | false => simp [allocate_port, eraseKey_eraseKey]
    | true =>
      rcases hl : lookup hn tp with _ | v
      · rcases hf : findFree tp (portPool r) with _ | p0
        · simp [allocate_port, hl, hf]
        · simp [allocate_port, hl, hf, lookup_setVal_self]
      · simp [allocate_port, hl]

/-- Claim C6: an existing entry wins over `explicit_ip`.  Whenever an
entry already exists for the hostname, `allocate_ip` returns the
existing value and leaves the table unchanged, whatever `explicit_ip`
is. -/
theorem existing_entry_wins (c : Cidr) (t : AllocTable) (hn : String)
    (eip : Option Nat) (v : Nat) (hv : lookup hn t = some v) :
    allocate_ip c hn eip true t = (.ok (some v), t) := by
  simp [allocate_ip, hv]

/-- Witness for C6 at a concrete input. -/
theorem existing_entry_wins_witness :
    allocate_ip cidr24 "a.test" (some 167917830) true [("a.test", 167917829)]
      = (.ok (some 167917829), [("a.test", 167917829)]) :=
  existing_entry_wins cidr24 [("a.test", 167917829)] "a.test"
    (some 167917830) 167917829 rfl

/-- Counterexample to claim C5 as stated: a call of `allocate_ip` whose
`explicit_ip` is the network address (hence invalid) does not raise
`InvalidAddressError` when an entry already exists for the hostname — it
returns the existing value.  `167917824` is the network address
`10.2.57.0` of `cidr24`, so `validHost` rejects it. -/
theorem explicit_ip_counterexample :
    ¬ validHost cidr24 167917824
    ∧ allocate_ip cidr24 "a.test" (some 167917824) true
        [("a.test", 167917829)]
      = (.ok (some 167917829), [("a.test", 167917829)]) := by
  exact ⟨by decide, rfl⟩

/-- Claim C5 (amended): for every `allocate_ip` call with `present=True`
and an `explicit_ip`, when no entry exists for the hostname: an
`explicit_ip` outside the CIDR block or equal to the network/broadcast
address raises `InvalidAddressError`, an `explicit_ip` bound to a
different key raises `AddressConflictError`, and both error outcomes
leave the table unmutated. -/
theorem explicit_ip_errors (c : Cidr) (t : AllocTable) (hn : String)
    (ip : Nat) (hnone : lookup hn t = none) :
    (¬ validHost c ip →
      allocate_ip c hn (some ip) true t = (.error .invalidAddress, t))
    ∧ (validHost c ip → boundToOther hn ip t = true →
      allocate_ip c hn (some ip) true t = (.error .addressConflict, t)) := by
  constructor
  · intro hv
    simp [allocate_ip, hnone, hv]
  · intro hv hb
    simp [allocate_ip, hnone, hv, hb]

/-- Witness for C5 (amended) at concrete inputs: the network address is
rejected for a fresh hostname, and an address held by another key
conflicts. -/
theorem explicit_ip_errors_witness :
    allocate_ip cidr24 "b.test" (some 167917824) true [("a.test", 167917829)]
      = (.error .invalidAddress, [("a.test", 167917829)])
    ∧ allocate_ip cidr24 "b.test" (some 167917829) true
        [("a.test", 167917829)]
      = (.error .addressConflict, [("a.test", 167917829)]) :=
  ⟨(explicit_ip_errors cidr24 [("a.test", 167917829)] "b.test"
      167917824 rfl).1 (by decide),
   (explicit_ip_errors cidr24 [("a.test", 167917829)] "b.test"
      167917829 rfl).2 (by decide) rfl⟩

/-- Claim C7: releasing a key (`present=False`) removes at most that
key's own entry and leaves every other key's entry unchanged, for both
allocators; and concretely on `cidr29`: key `A` gets the first host
address, releasing `A` frees it, key `B` then receives `A`'s former
address, and re-allocating `A` yields the next address, not the
original. -/
theorem release_frame_and_reuse :
    (∀ (c : Cidr) (t : AllocTable) (a : String) (eip : Option Nat),
      (allocate_ip c a eip false t).1 = .ok none
      ∧ lookup a (allocate_ip c a eip false t).2 = none
      ∧ ∀ k, k ≠ a → lookup k (allocate_ip c a eip false t).2 = lookup k t)
    ∧ (∀ (r : Nat × Nat) (t : AllocTable) (a : String),
      (allocate_port r a false t).1 = .ok none
      ∧ lookup a (allocate_port r a false t).2 = none
      ∧ ∀ k, k ≠ a → lookup k (allocate_port r a false t).2 = lookup k t)
    ∧ allocate_ip cidr29 "A" none true []
        = (.ok (some 167917825), [("A", 167917825)])
    ∧ allocate_ip cidr29 "A" none false [("A", 167917825)] = (.ok none, [])
    ∧ allocate_ip cidr29 "B" none true []
        = (.ok (some 167917825), [("B", 167917825)])
    ∧ allocate_ip cidr29 "A" none true [("B", 167917825)]
        = (.ok (some 167917826), [("B", 167917825), ("A", 167917826)]) := by
  refine ⟨?_, ?_, rfl, rfl, rfl, rfl⟩
  · intro c t a eip
    refine ⟨by simp [allocate_ip], ?_, ?_⟩
    · simp [allocate_ip, lookup_eraseKey_self]
    · intro k hk
      simp [allocate_ip, lookup_eraseKey_ne a k t hk]
  · intro r t a
    refine ⟨by simp [allocate_port], ?_, ?_⟩
    · simp [allocate_port, lookup_eraseKey_self]
    · intro k hk
      simp [allocate_port, lookup_eraseKey_ne a k t hk]

/-- Witness for C7 at a concrete input: releasing `A` leaves `B`'s entry
untouched. -/
theorem release_frame_witness :
    lookup "B" (allocate_ip cidr29 "A" none false
      [("B", 167917825), ("A", 167917826)]).2 = some 167917825 := by
  rw [(release_frame_and_reuse.1 cidr29 [("B", 167917825), ("A", 167917826)]
    "A" none).2.2 "B" (by decide)]
  rfl

/-- Claim C2: injectivity invariant.  In every reachable allocation-table
state of one namespace the mapping is injective — each key bound at most
once and each value held by at most one key — so distinct keys never
hold equal values; and the injectivity invariant is preserved by every
table operation (allocation with or without an explicit value, and
release). -/
theorem allocation_injectivity :
    (∀ (c : Cidr) (t : AllocTable), ReachableIp c t →
      TableInj t ∧ ∀ (k1 k2 : String) (v1 v2 : Nat), k1 ≠ k2 →
        lookup k1 t = some v1 → lookup k2 t = some v2 → v1 ≠ v2)
    ∧ (∀ (r : Nat × Nat) (t : AllocTable), ReachablePort r t →
      TableInj t ∧ ∀ (k1 k2 : String) (v1 v2 : Nat), k1 ≠ k2 →
        lookup k1 t = some v1 → lookup k2 t = some v2 → v1 ≠ v2)
    ∧ (∀ (c : Cidr) (hn : String) (eip : Option Nat) (pr : Bool)
        (t : AllocTable),
        TableInj t → TableInj (allocate_ip c hn eip pr t).2)
    ∧ (∀ (r : Nat × Nat) (hn : String) (pr : Bool) (t : AllocTable),
        TableInj t → TableInj (allocate_port r hn pr t).2) := by
  refine ⟨?_, ?_, tableInj_allocate_ip, tableInj_allocate_port⟩
  · intro c t ht
    have hI := reachableIp_inv c t ht
    exact ⟨hI.1, fun k1 k2 v1 v2 hk h1 h2 =>
      lookup_ne_of_nodup_values t hI.1.2 k1 k2 v1 v2 hk h1 h2⟩
  · intro r t ht
    have hI := reachablePort_inv r t ht
    exact ⟨hI.1, fun k1 k2 v1 v2 hk h1 h2 =>
      lookup_ne_of_nodup_values t hI.1.2 k1 k2 v1 v2 hk h1 h2⟩

/-- Witness for C2: injectivity of a concrete reachable two-entry
table. -/
theorem allocation_injectivity_witness :
    TableInj (allocate_ip cidr29 "B" none true
      (allocate_ip cidr29 "A" none true []).2).2 :=
  (allocation_injectivity.1 cidr29 _
    (ReachableIp.step _ "B" none true
      (ReachableIp.step _ "A" none true ReachableIp.empty))).1

/-- Claim C3: automatic allocation is first-free-ascending or
exhaustion.  For a key with no entry and no explicit value, a successful
allocation returns the least free pool value (both allocators), an
entirely-taken pool yields `PoolExhaustedError` with the table
unmutated, and concretely the first automatic allocation on an empty
table for CIDR `10.2.57.0/24` returns `10.2.57.1` (= 167917825). -/
theorem first_free_or_exhausted (c : Cidr) (r : Nat × Nat)
    (t tp : AllocTable) (hn : String)
    (hnone : lookup hn t = none) (hnonep : lookup hn tp = none) :
    (∀ (v : Nat) (t2 : AllocTable),
      allocate_ip c hn none true t = (.ok (some v), t2) →
      validHost c v ∧ hasValue v t = false
        ∧ ∀ w, validHost c w → hasValue w t = false → v ≤ w)
    ∧ ((∀ w, validHost c w → hasValue w t = true) →
      allocate_ip c hn none true t = (.error .poolExhausted, t))
    ∧ (∀ (v : Nat) (t2 : AllocTable),
      allocate_port r hn true tp = (.ok (some v), t2) →
      inPortRange r v ∧ hasValue v tp = false
        ∧ ∀ w, inPortRange r w → hasValue w tp = false → v ≤ w)
    ∧ ((∀ w, inPortRange r w → hasValue w tp = true) →
      allocate_port r hn true tp = (.error .poolExhausted, tp))
    ∧ allocate_ip cidr24 "hostA" none true []
        = (.ok (some 167917825), [("hostA", 167917825)]) := by
  refine ⟨?_, ?_, ?_, ?_, rfl⟩
  · intro v t2 heq
    rcases hf : findFree t (ipPool c) with _ | ip
    · simp [allocate_ip, hnone, hf] at heq
    · simp [allocate_ip, hnone, hf] at heq
      obtain ⟨h1, -⟩ := heq
      subst h1
      have hf2 : findFree t (List.range' (c.base + 1)
          (2 ^ hostBits c - 2)) = some ip := hf
      obtain ⟨hfree, hge, hlt, hmin⟩ :=
        findFree_range'_some t (c.base + 1) (2 ^ hostBits c - 2) ip hf2
      have hvalid : validHost c ip :=
        (mem_ipPool_iff c ip).1 (findFree_some_free t _ ip hf).2
      refine ⟨hvalid, hfree, ?_⟩
      intro w hw hwfree
      by_contra hcon
      have hcon2 : w < ip := by omega
      have hww : c.base + 1 ≤ w := by
        have := hw.1
        omega
      have htrue := hmin w hww hcon2
      rw [htrue] at hwfree
      simp at hwfree
  · intro hall
    have hnone2 : findFree t (ipPool c) = none := by
      apply findFree_range'_none
      intro w hw1 hw2
      exact hall w ((mem_ipPool_iff c w).1 (List.mem_range'_1.2 ⟨hw1, hw2⟩))
    simp [allocate_ip, hnone, hnone2]
  · intro v t2 heq
    rcases hf : findFree tp (portPool r) with _ | p0
    · simp [allocate_port, hnonep, hf] at heq
    · simp [allocate_port, hnonep, hf] at heq
      obtain ⟨h1, -⟩ := heq
      subst h1
      have hf2 : findFree tp (List.range' r.1 (r.2 + 1 - r.1)) = some p0 := hf
      obtain ⟨hfree, hge, hlt, hmin⟩ :=
        findFree_range'_some tp r.1 (r.2 + 1 - r.1) p0 hf2
      have hvalid : inPortRange r p0 :=
        (mem_portPool_iff r p0).1 (findFree_some_free tp _ p0 hf).2
      refine ⟨hvalid, hfree, ?_⟩
      intro w hw hwfree
      by_contra hcon
      have hcon2 : w < p0 := by omega
      have hww : r.1 ≤ w := hw.1
      have htrue := hmin w hww hcon2
      rw [htrue] at hwfree
      simp at hwfree
  · intro hall
    have hnone2 : findFree tp (portPool r) = none := by
      apply findFree_range'_none
      intro w hw1 hw2
      exact hall w ((mem_portPool_iff r w).1 (List.mem_range'_1.2 ⟨hw1, hw2⟩))
    simp [allocate_port, hnonep, hnone2]

/-- Witness for C3 at a concrete input: the address returned for the
first allocation on the empty `10.2.57.0/24` table is a valid free host
address and minimal among them. -/
theorem first_free_witness :
    validHost cidr24 167917825 ∧ hasValue 167917825 [] = false
      ∧ ∀ w, validHost cidr24 w → hasValue w [] = false → 167917825 ≤ w :=
  (first_free_or_exhausted cidr24 (12500, 12502) [] [] "hostA" rfl rfl).1
    167917825 [("hostA", 167917825)] rfl

/-- Claim C4: pool containment.  In every reachable table state no
stored value lies outside the configured pool, and every value returned
by a successful allocation lies in the pool — strictly inside the host
range for IPs, within the closed interval for ports. -/
theorem pool_containment :
    (∀ (c : Cidr) (t : AllocTable), ReachableIp c t →
      (∀ p ∈ t, validHost c p.2)
      ∧ ∀ (hn : String) (eip : Option Nat) (v : Nat) (t2 : AllocTable),
          allocate_ip c hn eip true t = (.ok (some v), t2) → validHost c v)
    ∧ (∀ (r : Nat × Nat) (t : AllocTable), ReachablePort r t →
      (∀ p ∈ t, inPortRange r p.2)
      ∧ ∀ (hn : String) (v : Nat) (t2 : AllocTable),
          allocate_port r hn true t = (.ok (some v), t2) → inPortRange r v) := by
  constructor
  · intro c t ht
    have hI := reachableIp_inv c t ht
    refine ⟨hI.2, ?_⟩
    intro hn eip v t2 heq
    rcases hl : lookup hn t with _ | v0
    · rcases eip with _ | ip
      · rcases hf : findFree t (ipPool c) with _ | ip
        · simp [allocate_ip, hl, hf] at heq
        · simp [allocate_ip, hl, hf] at heq
          obtain ⟨h1, -⟩ := heq
          subst h1
          exact (mem_ipPool_iff c _).1 (findFree_some_free t _ _ hf).2
      · by_cases hv : validHost c ip
        · by_cases hb : boundToOther hn ip t = true
          · simp [allocate_ip, hl, hv, hb] at heq
          · have hb2 : boundToOther hn ip t = false := by simpa using hb
            simp [allocate_ip, hl, hv, hb2] at heq
            obtain ⟨h1, -⟩ := heq
            subst h1
            exact hv
        · simp [allocate_ip, hl, hv] at heq
    · simp [allocate_ip, hl] at heq
      obtain ⟨h1, -⟩ := heq
      subst h1
      exact hI.2 (hn, v0) (lookup_mem hn v0 t hl)
  · intro r t ht
    have hI := reachablePort_inv r t ht
    refine ⟨hI.2, ?_⟩
    intro hn v t2 heq
    rcases hl : lookup hn t with _ | v0
    · rcases hf : findFree t (portPool r) with _ | p0
      · simp [allocate_port, hl, hf] at heq
      · simp [allocate_port, hl, hf] at heq
        obtain ⟨h1, -⟩ := heq
        subst h1
        exact (mem_portPool_iff r _).1 (findFree_some_free t _ _ hf).2
    · simp [allocate_port, hl] at heq
      obtain ⟨h1, -⟩ := heq
      subst h1
      exact hI.2 (hn, v0) (lookup_mem hn v0 t hl)

/-- Witness for C4 at a concrete input: the first address allocated on
the empty `10.2.57.0/29` table lies strictly inside the host range. -/
theorem pool_containment_witness :
    validHost cidr29 167917825 :=
  (pool_containment.1 cidr29 [] ReachableIp.empty).2 "A" none 167917825
    [("A", 167917825)] rfl

/-- Claim C9: the implicit precondition guards precede allocation.  If
the hostname does not end with the network DNS domain, or failover is
requested while `failover_etcd` is empty, `endpoint` raises `ValueError`
before either allocator is invoked, for any `present` flag, leaving both
tables untouched. -/
theorem guards_precede_allocation (net : NetworkL) (hn : String)
    (ip underlay_port : Option Nat) (fo pr : Bool) (st : EndpointState)
    (hbad : strEndsWith hn net.dns_domain = false
      ∨ (fo = true ∧ net.failover_etcd.isEmpty = true)) :
    endpoint net hn ip underlay_port fo pr st = (.error .valueError, st)
    ∧ endpointCallsIpam net hn fo = false
    ∧ endpointCallsPortAlloc net hn ip underlay_port fo pr st = false := by
  rcases hbad with h | ⟨h1, h2⟩
  · simp [endpoint, endpointCallsIpam, endpointCallsPortAlloc, h]
  · subst h1
    by_cases hg : strEndsWith hn net.dns_domain = true
    · simp [endpoint, endpointCallsIpam, endpointCallsPortAlloc, hg, h2]
    · have hg2 : strEndsWith hn net.dns_domain = false := by simpa using hg
      simp [endpoint, endpointCallsIpam, endpointCallsPortAlloc, hg2]

/-- Witness for C9 at a concrete input: a hostname outside the DNS
domain trips the guard before any allocator runs. -/
theorem guards_precede_allocation_witness :
    endpoint net0 "bad" none none false true ⟨[], []⟩
      = (.error .valueError, ⟨[], []⟩)
    ∧ endpointCallsIpam net0 "bad" false = false
    ∧ endpointCallsPortAlloc net0 "bad" none none false true ⟨[], []⟩
        = false :=
  guards_precede_allocation net0 "bad" none none false true ⟨[], []⟩
    (Or.inl rfl)

/-- Counterexample to claim C8 as stated: a call of `endpoint` with
`underlay_port = None` in which the port allocator is nevertheless not
invoked — the hostname-domain guard raises `ValueError` first.  This
refutes the if-direction of "the port allocator is invoked if and only
if `underlay_port` is None". -/
theorem port_bypass_counterexample :
    strEndsWith "bad" net0.dns_domain = false
    ∧ endpointCallsPortAlloc net0 "bad" none none false true ⟨[], []⟩
        = false
    ∧ endpoint net0 "bad" none none false true ⟨[], []⟩
        = (.error .valueError, ⟨[], []⟩) :=
  ⟨rfl, rfl, rfl⟩

/-- Claim C8 (amended): the port allocator is invoked only if
`underlay_port` is None — exactly when, in addition, both validation
guards pass and the IP allocation succeeds; and whenever the caller
supplies an `underlay_port` (any non-None value, for any present flag),
no port-table operation occurs and the supplied port is used as-is
without validation. -/
theorem port_bypass (net : NetworkL) (hn : String) (ip : Option Nat)
    (underlay_port : Option Nat) (fo pr : Bool) (st : EndpointState) :
    (endpointCallsPortAlloc net hn ip underlay_port fo pr st = true ↔
      underlay_port = none ∧ endpointCallsIpam net hn fo = true
        ∧ isOk (allocate_ip net.cidr hn ip pr st.ipTable).1 = true)
    ∧ ∀ q, underlay_port = some q →
      (endpoint net hn ip underlay_port fo pr st).2.portTable
          = st.portTable
      ∧ endpointCallsPortAlloc net hn ip underlay_port fo pr st = false
      ∧ ∀ res st2,
          endpoint net hn ip underlay_port fo pr st = (.ok res, st2) →
          res.2 = some q := by
  constructor
  · rcases ha : (allocate_ip net.cidr hn ip pr st.ipTable).1 with e1 | r1
    · simp [endpointCallsPortAlloc, ha, isOk]
    · cases underlay_port with
      | none => simp [endpointCallsPortAlloc, ha, isOk]
      | some q => simp [endpointCallsPortAlloc, ha, isOk]
  · intro q hq
    subst hq
    by_cases hg1 : strEndsWith hn net.dns_domain = true
    · by_cases hg2 : fo = true ∧ net.failover_etcd.isEmpty = true
      · refine ⟨by simp [endpoint, hg1, hg2], ?_, ?_⟩
        · obtain ⟨hf1, hf2⟩ := hg2
          subst hf1
          simp [endpointCallsPortAlloc, endpointCallsIpam, hf2]
        · intro res st2 heq
          simp [endpoint, hg1, hg2] at heq
      · have hg2b : ¬ (fo = true ∧ net.failover_etcd = []) := by
          simpa [List.isEmpty_iff] using hg2
        rcases hA : allocate_ip net.cidr hn ip pr st.ipTable with ⟨e1 | r1, t2⟩
        · have ha1 : (allocate_ip net.cidr hn ip pr st.ipTable).1
              = .error e1 := by rw [hA]
          refine ⟨by simp [endpoint, hg1, hg2b, hA], ?_, ?_⟩
          · simp [endpointCallsPortAlloc, ha1]
          · intro res st2 heq
            simp [endpoint, hg1, hg2b, hA] at heq
        · have ha1 : (allocate_ip net.cidr hn ip pr st.ipTable).1
              = .ok r1 := by rw [hA]
          refine ⟨by simp [endpoint, hg1, hg2b, hA], ?_, ?_⟩
          · simp [endpointCallsPortAlloc, ha1]
          · intro res st2 heq
            simp [endpoint, hg1, hg2b, hA] at heq
            obtain ⟨h1, -⟩ := heq
            subst h1
            rfl
    · have hg2 : strEndsWith hn net.dns_domain = false := by simpa using hg1
      refine ⟨by simp [endpoint, hg2], ?_, ?_⟩
      · simp [endpointCallsPortAlloc, endpointCallsIpam, hg2]
      · intro res st2 heq
        simp [endpoint, hg2] at heq

/-- Witness for C8 (amended) at a concrete input: a supplied underlay
port bypasses the port allocator and is used as-is. -/
theorem port_bypass_witness :
    (endpoint net0 "h.test" none (some 4242) false true ⟨[], []⟩).2.portTable
        = []
    ∧ endpointCallsPortAlloc net0 "h.test" none (some 4242) false true
        ⟨[], []⟩ = false
    ∧ ∀ res st2,
        endpoint net0 "h.test" none (some 4242) false true ⟨[], []⟩
          = (.ok res, st2) → res.2 = some 4242 :=
  (port_bypass net0 "h.test" none (some 4242) false true ⟨[], []⟩).2
    4242 rfl

/-- Counterexample to claim C10 as stated: a teardown call
(`present=False`) of `endpoint` in which `ipam.allocate_ip` is not
invoked at all — the hostname-domain guard raises `ValueError` first,
and the hostname's IP entry stays in the table. -/
theorem teardown_counterexample :
    endpointCallsIpam net0 "bad" false = false
    ∧ endpoint net0 "bad" none none false false ⟨[("bad", 167917825)], []⟩
        = (.error .valueError, ⟨[("bad", 167917825)], []⟩) :=
  ⟨rfl, rfl⟩

/-- Claim C10 (amended): for every `endpoint` call with `present=False`
that passes the two validation guards, `ipam.allocate_ip` is invoked
with `present=False` and the hostname's IP entry is released whether or
not an explicit ip argument was supplied, whereas the hostname's port
entry is released only when `underlay_port` is None — a guarded teardown
call with a non-None `underlay_port` leaves the port table untouched. -/
theorem teardown_asymmetry (net : NetworkL) (hn : String)
    (ip underlay_port : Option Nat) (fo : Bool) (st : EndpointState)
    (hg1 : strEndsWith hn net.dns_domain = true)
    (hg2 : ¬ (fo = true ∧ net.failover_etcd.isEmpty = true)) :
    endpointCallsIpam net hn fo = true
    ∧ (endpoint net hn ip underlay_port fo false st).2.ipTable
        = eraseKey hn st.ipTable
    ∧ (endpoint net hn ip underlay_port fo false st).2.portTable
        = match underlay_port with
          | none => eraseKey hn st.portTable
          | some _ => st.portTable := by
  have hq : (fo && net.failover_etcd.isEmpty) = false := by
    cases fo with
    | false => rfl
    | true =>
      cases he : net.failover_etcd.isEmpty with
      | false => simp [he]
      | true => exact absurd ⟨rfl, he⟩ hg2
  have hg2b : ¬ (fo = true ∧ net.failover_etcd = []) := by
    simpa [List.isEmpty_iff] using hg2
  refine ⟨?_, ?_, ?_⟩
  · simp [endpointCallsIpam, hg1, hq]
  · cases underlay_port with
    | none => simp [endpoint, hg1, hg2b, allocate_ip, allocate_port]
    | some q => simp [endpoint, hg1, hg2b, allocate_ip]
  · cases underlay_port with
    | none => simp [endpoint, hg1, hg2b, allocate_ip, allocate_port]
    | some q => simp [endpoint, hg1, hg2b, allocate_ip]

/-- Witness for C10 (amended) at a concrete input: a guarded teardown
with a supplied underlay port releases the IP entry but leaves the port
table untouched. -/
theorem teardown_asymmetry_witness :
    endpointCallsIpam net0 "h.test" false = true
    ∧ (endpoint net0 "h.test" none (some 4242) false false
        ⟨[("h.test", 167917825)], [("h.test", 12500)]⟩).2.ipTable
        = eraseKey "h.test" [("h.test", 167917825)]
    ∧ (endpoint net0 "h.test" none (some 4242) false false
        ⟨[("h.test", 167917825)], [("h.test", 12500)]⟩).2.portTable
        = [("h.test", 12500)] :=
  teardown_asymmetry net0 "h.test" none (some 4242) false
    ⟨[("h.test", 167917825)], [("h.test", 12500)]⟩ rfl (by decide)

end ContainerOps
